import Mathlib

/-!
Verification of the `CorefSafeChunker` module (`flexmind/chunking/coref_chunker.py`).

Text is modelled as a list of characters.  The spaCy pipeline is an external
collaborator; it is modelled as an abstract structure `SpacyNLP` producing, for
a given text, a parsed document (`Doc`) consisting of a token list (with lemma
and part-of-speech attributes), an entity list (with labels) and a sentence
list.  All chunker methods are translated from the source; theorems are stated
over arbitrary collaborators, with hypotheses making explicit the segmenter
behaviour they rely on (e.g. that re-splitting a space-join of sentences
recovers the sentence list).  Concrete toy collaborators (a character-level
segmenter and a lookup-table pipeline) instantiate the hypotheses in witnesses.
-/

namespace Flexmind

/-- Text is a sequence of characters. -/
abbrev Str := List Char

/-- Convert a Lean string literal to the character-list representation. -/
def s2l (s : String) : Str := s.data

/-- Whitespace predicate used by Python `str.strip()` / `str.split()`. -/
def isWs (c : Char) : Bool := c = ' ' ∨ c = '\n' ∨ c = '\t' ∨ c = '\r'

/-- Python `str.strip()`: remove leading and trailing whitespace. -/
def strip (s : Str) : Str :=
  ((s.dropWhile isWs).reverse.dropWhile isWs).reverse

/-- Python `str.lower()`. -/
def lowerStr (s : Str) : Str := s.map Char.toLower

/-- Python `" ".join(xs)`. -/
def joinSp : List Str → Str
  | [] => []
  | [s] => s
  | s :: rest => s ++ (' ' :: joinSp rest)

/-- Python whitespace `str.split()` (no argument): split on whitespace runs,
dropping empty pieces. -/
def pyWords (s : Str) : List Str :=
  (s.splitOnP isWs).filter (fun w => w ≠ [])

/-- `a` occurs verbatim (as a contiguous substring) inside `b`. -/
def substrOf (a b : Str) : Prop := ∃ u v, b = u ++ a ++ v

/-- A spaCy token, with the attributes the chunker reads (`lemma_`, `pos_`). -/
structure Token where
  lemma_ : Str
  pos_ : Str
deriving DecidableEq, Repr

/-- A spaCy entity span, with the attribute the chunker reads (`label_`). -/
structure Ent where
  label_ : Str
deriving DecidableEq, Repr

/-- A parsed document: token list, entity list and sentence texts. -/
structure Doc where
  tokens : List Token
  ents : List Ent
  sents : List Str
deriving DecidableEq, Repr

/-- The external NLP collaborator: `self.nlp(text)` returns a `Doc`. -/
structure SpacyNLP where
  parse : Str → Doc

/-! ## Data model: `Chunk` (from `coref_chunker.py`, lines 7-13) -/

/-- The metadata mapping built by `_create_chunk`. -/
structure ChunkMetadata where
  chunk_id : Nat
  token_count : Nat
  sentence_count : Nat
  has_entities : Bool
  pronoun_density : ℚ
deriving DecidableEq, Repr

/-- `Chunk`: a text chunk with metadata. -/
structure Chunk where
  text : Str
  start_idx : Nat
  end_idx : Nat
  metadata : ChunkMetadata
deriving DecidableEq, Repr

/-- Chunker configuration (`__init__` arguments). -/
structure ChunkerConfig where
  target_size : Nat
  max_size : Nat
  overlap_sentences : Nat

/-! ## Vocabulary constants (source lines 27-32) -/

/-- The fixed pronoun vocabulary, `CorefSafeChunker.PRONOUNS`, flattened as in
`all_pronouns.update(...)` (membership-equivalent to the Python set). -/
def allPronouns : List Str :=
  (["he", "she", "it", "they", "him", "her", "them"] ++
   ["his", "her", "its", "their", "hers", "theirs"] ++
   ["this", "that", "these", "those"] ++
   ["himself", "herself", "itself", "themselves"]).map s2l

/-- Entity labels filtered out by `_has_named_entities`. -/
def temporalLabels : List Str :=
  (["DATE", "TIME", "CARDINAL", "ORDINAL"]).map s2l

/-- Generic-noun stoplist of `_has_concrete_nouns`. -/
def genericNouns : List Str :=
  (["thing", "person", "place", "way", "time"]).map s2l

/-- Hazard set of `_apply_sentence_start_rule`. -/
def hazardPronouns : List Str :=
  (["he", "she", "they", "this", "that", "it"]).map s2l

/-! ## NLP-derived helpers (source lines 108-164, 303-313, 359-365) -/

/-- `_split_into_sentences`: sentence texts, stripped, empties dropped. -/
def split_into_sentences (nlp : SpacyNLP) (text : Str) : List Str :=
  ((nlp.parse text).sents.map strip).filter (fun s => s ≠ [])

/-- `_count_tokens`: `len(self.nlp(text))`. -/
def count_tokens (nlp : SpacyNLP) (text : Str) : Nat :=
  (nlp.parse text).tokens.length

/-- The per-token pronoun test of `_calculate_pronoun_density` and
`_contains_pronouns`: lemma (lowercased) in the pronoun set, or POS `PRON`. -/
def isPronounTok (t : Token) : Bool :=
  decide (lowerStr t.lemma_ ∈ allPronouns ∨ t.pos_ = s2l "PRON")

/-- `_calculate_pronoun_density`: pronoun tokens / total tokens (0 if empty).
The exact rational `count / len` is written `mkRat count len`; the lemma
`calculate_pronoun_density_div` below restates it with field division. -/
def calculate_pronoun_density (nlp : SpacyNLP) (text : Str) : ℚ :=
  if (nlp.parse text).tokens.length = 0 then 0
  else mkRat ((nlp.parse text).tokens.countP isPronounTok)
    (nlp.parse text).tokens.length

/-- `_has_named_entities`: some entity whose label is not purely
temporal/numeric. -/
def has_named_entities (nlp : SpacyNLP) (text : Str) : Bool :=
  decide (0 < ((nlp.parse text).ents.filter
    (fun e => decide (e.label_ ∉ temporalLabels))).length)

/-- `_contains_pronouns`. -/
def contains_pronouns (nlp : SpacyNLP) (text : Str) : Bool :=
  (nlp.parse text).tokens.any isPronounTok

/-- `_has_concrete_nouns`: a NOUN token whose lemma is not a generic noun. -/
def has_concrete_nouns (nlp : SpacyNLP) (text : Str) : Bool :=
  (nlp.parse text).tokens.any
    (fun t => decide (t.pos_ = s2l "NOUN" ∧ lowerStr t.lemma_ ∉ genericNouns))

/-! ## Chunk materialisation (source lines 166-183) -/

/-- `_create_chunk`: build a `Chunk`, recomputing all metadata from `text`. -/
def create_chunk (nlp : SpacyNLP) (text : Str) (start_idx : Nat)
    (chunk_id : Nat) : Chunk :=
  { text := text
    start_idx := start_idx
    end_idx := start_idx + text.length
    metadata :=
      { chunk_id := chunk_id
        token_count := count_tokens nlp text
        sentence_count := (split_into_sentences nlp text).length
        has_entities := has_named_entities nlp text
        pronoun_density := calculate_pronoun_density nlp text } }

/-! ## Shared backward lookup (source lines 315-357) -/

/-- Lines 320-335 of `_get_previous_sentences_with_entities`: resolve where the
current chunk begins in the original sentence sequence (first text match of its
first sentence), falling back to the rough estimate `chunk_idx * 2`. -/
def chunk_start_idx (nlp : SpacyNLP) (all_sentences : List Str)
    (chunk_idx : Nat) (all_chunks : List Chunk) : Nat :=
  match (match all_chunks.get? chunk_idx with
         | some c => split_into_sentences nlp c.text
         | none => []) with
  | [] => chunk_idx * 2
  | first_sentence :: _ =>
      match all_sentences.findIdx? (fun sent => strip sent == strip first_sentence) with
      | some i => i
      | none => chunk_idx * 2

/-- The backward scan loop shared by the entity pass and the concrete-noun
fallback pass: walk the given (descending) index list, collecting sentences
satisfying `pred` front-first, returning early once `max_sentences` are held. -/
def scanLoop (all_sentences : List Str) (max_sentences : Nat)
    (pred : Str → Bool) : List Nat → List Str → List Str
  | [], result => result
  | i :: rest, result =>
      if i < all_sentences.length then
        if pred (all_sentences.getD i []) then
          if max_sentences ≤ (all_sentences.getD i [] :: result).length then
            all_sentences.getD i [] :: result
          else scanLoop all_sentences max_sentences pred rest
            (all_sentences.getD i [] :: result)
        else scanLoop all_sentences max_sentences pred rest result
      else scanLoop all_sentences max_sentences pred rest result

/-- `_get_previous_sentences_with_entities`: entity scan over
`range(current_start_idx - 1, -1, -1)`, then, if it found nothing, the
concrete-noun fallback over `range(current_start_idx - 1, max(0,
current_start_idx - 6), -1)`. -/
def get_previous_sentences_with_entities (nlp : SpacyNLP)
    (all_sentences : List Str) (chunk_idx : Nat) (all_chunks : List Chunk)
    (max_sentences : Nat) : List Str :=
  if chunk_idx = 0 then [] else
  if scanLoop all_sentences max_sentences (has_named_entities nlp)
      (List.range (chunk_start_idx nlp all_sentences chunk_idx all_chunks)).reverse
      [] = [] then
    scanLoop all_sentences max_sentences (has_concrete_nouns nlp)
      (((List.range (chunk_start_idx nlp all_sentences chunk_idx all_chunks)).reverse).filter
        (fun i => chunk_start_idx nlp all_sentences chunk_idx all_chunks - 6 < i)) []
  else
    scanLoop all_sentences max_sentences (has_named_entities nlp)
      (List.range (chunk_start_idx nlp all_sentences chunk_idx all_chunks)).reverse []

/-! ## Hazard rules (source lines 211-301) -/

/-- `_apply_start_rule` (Rule A). -/
def apply_start_rule (nlp : SpacyNLP) (chunk : Chunk) (all_chunks : List Chunk)
    (all_sentences : List Str) (chunk_idx : Nat) : Chunk :=
  if chunk_idx = 0 then chunk else
  match split_into_sentences nlp chunk.text with
  | [] => chunk
  | first_sentence :: rest =>
      if has_named_entities nlp first_sentence = false ∧
         contains_pronouns nlp first_sentence = true then
        if get_previous_sentences_with_entities nlp all_sentences chunk_idx
            all_chunks 1 ≠ [] then
          if (get_previous_sentences_with_entities nlp all_sentences chunk_idx
              all_chunks 1).filter
              (fun sent => decide (sent ∉ first_sentence :: rest)) ≠ [] then
            create_chunk nlp
              (joinSp ((get_previous_sentences_with_entities nlp all_sentences
                  chunk_idx all_chunks 1).filter
                  (fun sent => decide (sent ∉ first_sentence :: rest)) ++
                (first_sentence :: rest)))
              chunk.start_idx chunk.metadata.chunk_id
          else chunk
        else chunk
      else chunk

/-- `_apply_anaphora_hazard_rule` (Rule B).  The Python literal `0.15` is
embedded as the exact rational `mkRat 15 100` (IEEE comparison
`count/len >= 0.15` agrees with the exact-rational comparison at the boundary,
since a correctly-rounded quotient equal to 0.15 rounds to the same double as
the literal). -/
def apply_anaphora_hazard_rule (nlp : SpacyNLP) (chunk : Chunk)
    (all_chunks : List Chunk) (all_sentences : List Str) (chunk_idx : Nat) :
    Chunk :=
  match split_into_sentences nlp chunk.text with
  | [] => chunk
  | first_sentence :: rest =>
      if ((first_sentence :: rest).any
          (fun s => decide (mkRat 15 100 ≤ calculate_pronoun_density nlp s))) =
          false then chunk else
      if 0 < chunk_idx then
        if get_previous_sentences_with_entities nlp all_sentences chunk_idx
            all_chunks 2 ≠ [] then
          if (get_previous_sentences_with_entities nlp all_sentences chunk_idx
              all_chunks 2).filter
              (fun sent => decide (sent ∉ first_sentence :: rest)) ≠ [] then
            create_chunk nlp
              (joinSp ((get_previous_sentences_with_entities nlp all_sentences
                  chunk_idx all_chunks 2).filter
                  (fun sent => decide (sent ∉ first_sentence :: rest)) ++
                (first_sentence :: rest)))
              chunk.start_idx chunk.metadata.chunk_id
          else chunk
        else chunk
      else chunk

/-- `sentence.strip().split()[0].lower() if sentence.strip() else ""`. -/
def first_word (s : Str) : Str :=
  match pyWords (strip s) with
  | [] => []
  | w :: _ => lowerStr w

/-- `_apply_sentence_start_rule` (Rule C). -/
def apply_sentence_start_rule (nlp : SpacyNLP) (chunk : Chunk)
    (all_chunks : List Chunk) (all_sentences : List Str) (chunk_idx : Nat) :
    Chunk :=
  match split_into_sentences nlp chunk.text with
  | [] => chunk
  | first_sentence :: rest =>
      if ((first_sentence :: rest).any
          (fun s => hazardPronouns.contains (first_word s))) = false then chunk
      else
      if 0 < chunk_idx then
        if get_previous_sentences_with_entities nlp all_sentences chunk_idx
            all_chunks 1 ≠ [] then
          if (get_previous_sentences_with_entities nlp all_sentences chunk_idx
              all_chunks 1).filter
              (fun sent => decide (sent ∉ first_sentence :: rest)) ≠ [] then
            create_chunk nlp
              (joinSp ((get_previous_sentences_with_entities nlp all_sentences
                  chunk_idx all_chunks 1).filter
                  (fun sent => decide (sent ∉ first_sentence :: rest)) ++
                (first_sentence :: rest)))
              chunk.start_idx chunk.metadata.chunk_id
          else chunk
        else chunk
      else chunk

/-! ## Rule driver (source lines 185-209) -/

/-- Loop body of `_apply_coref_rules` (`for i, chunk in enumerate(chunks)`). -/
def coref_rules_go (nlp : SpacyNLP) (chunks : List Chunk)
    (sentences : List Str) : Nat → List Chunk → List Chunk
  | _, [] => []
  | i, c :: rest =>
      (if split_into_sentences nlp c.text = [] then c
       else
         apply_sentence_start_rule nlp
           (apply_anaphora_hazard_rule nlp
             (apply_start_rule nlp c chunks sentences i)
             chunks sentences i)
           chunks sentences i) ::
      coref_rules_go nlp chunks sentences (i + 1) rest

/-- `_apply_coref_rules`. -/
def apply_coref_rules (nlp : SpacyNLP) (chunks : List Chunk)
    (sentences : List Str) : List Chunk :=
  if chunks.length ≤ 1 then chunks
  else coref_rules_go nlp chunks sentences 0 chunks

/-! ## Greedy packer and the public `chunk` operation (source lines 53-106) -/

/-- Python negative-index tail slice `xs[-k:]` (for `k = 0` this is the whole
list, as in Python). -/
def pySliceLast {α : Type} (l : List α) (k : Nat) : List α :=
  if k = 0 then l else l.drop (l.length - k)

/-- The packing loop state: produced chunks, current sentence buffer, running
token count, and the sentence index at which the buffer begins. -/
structure PackState where
  chunks : List Chunk
  current_sentences : List Str
  current_token_count : Nat
  sentence_start_idx : Nat

/-- The overlap seed of the next buffer (source line 89):
`current_sentences[-overlap_sentences:] if len(current_sentences) >=
overlap_sentences else current_sentences[:]`. -/
def overlap_tail (cfg : ChunkerConfig) (cur : List Str) : List Str :=
  if cfg.overlap_sentences ≤ cur.length then
    pySliceLast cur cfg.overlap_sentences
  else cur

/-- One iteration of the packing loop (source lines 78-95), at enumerated
position `p = (i, sentence)`. -/
def packStep (nlp : SpacyNLP) (cfg : ChunkerConfig) (st : PackState)
    (p : Nat × Str) : PackState :=
  if cfg.target_size < st.current_token_count + count_tokens nlp p.2 ∧
     st.current_sentences ≠ [] then
    { chunks := st.chunks ++ [create_chunk nlp (joinSp st.current_sentences)
        st.sentence_start_idx st.chunks.length]
      current_sentences := overlap_tail cfg st.current_sentences ++ [p.2]
      current_token_count :=
        ((overlap_tail cfg st.current_sentences ++ [p.2]).map
          (count_tokens nlp)).sum
      sentence_start_idx := p.1 - (overlap_tail cfg st.current_sentences).length }
  else
    { st with
      current_sentences := st.current_sentences ++ [p.2]
      current_token_count := st.current_token_count + count_tokens nlp p.2 }

/-- The packing loop fold (source lines 73-95). -/
def packFold (nlp : SpacyNLP) (cfg : ChunkerConfig) (sentences : List Str) :
    PackState :=
  sentences.enum.foldl (packStep nlp cfg) ⟨[], [], 0, 0⟩

/-- The packing loop plus the final-flush step (source lines 73-101). -/
def packLoop (nlp : SpacyNLP) (cfg : ChunkerConfig) (sentences : List Str) :
    List Chunk :=
  if (packFold nlp cfg sentences).current_sentences ≠ [] then
    (packFold nlp cfg sentences).chunks ++
      [create_chunk nlp (joinSp (packFold nlp cfg sentences).current_sentences)
        (packFold nlp cfg sentences).sentence_start_idx
        (packFold nlp cfg sentences).chunks.length]
  else (packFold nlp cfg sentences).chunks

/-- `CorefSafeChunker.chunk`. -/
def chunk (nlp : SpacyNLP) (cfg : ChunkerConfig) (text : Str) : List Chunk :=
  if strip text = [] then [] else
  match split_into_sentences nlp text with
  | [] => []
  | [s] => [create_chunk nlp s 0 0]
  | s₁ :: s₂ :: rest =>
      apply_coref_rules nlp (packLoop nlp cfg (s₁ :: s₂ :: rest))
        (s₁ :: s₂ :: rest)

/-! ## Concrete toy collaborators (for witnesses and counterexamples) -/

/-- A character-level toy pipeline: every non-whitespace character is both a
one-character sentence and a one-character token; entity-, pronoun- and
noun-hood of a character are table-driven. -/
structure CharModel where
  entChars : List Char
  pronChars : List Char
  nounChars : List Char

/-- Token attributes of a character under a `CharModel`. -/
def charTok (m : CharModel) (c : Char) : Token :=
  { lemma_ := [c]
    pos_ := if c ∈ m.pronChars then s2l "PRON"
            else if c ∈ m.nounChars then s2l "NOUN" else s2l "X" }

/-- Parse a text under a `CharModel`. -/
def charParse (m : CharModel) (t : Str) : Doc :=
  let cs := t.filter (fun c => !isWs c)
  { tokens := cs.map (charTok m)
    ents := (cs.filter (fun c => decide (c ∈ m.entChars))).map
      (fun _ => { label_ := s2l "PERSON" })
    sents := cs.map (fun c => [c]) }

/-- The character-level toy pipeline as a collaborator. -/
def charNLP (m : CharModel) : SpacyNLP := ⟨charParse m⟩

/-- A lookup-table pipeline: a finite association of texts to parses; texts
missing from the table parse to the empty document. -/
def tableNLP (tbl : List (Str × Doc)) : SpacyNLP :=
  ⟨fun t => match tbl.find? (fun p => p.1 == t) with
    | some p => p.2
    | none => ⟨[], [], []⟩⟩

/-- All elements of the list are single non-whitespace characters. -/
def singleChars (l : List Str) : Bool :=
  l.all (fun x => match x with | [c] => !isWs c | _ => false)

/-! ## Statement-level predicates -/

/-- Every hazard rule either leaves the chunk alone or replaces it by a
re-materialised chunk whose sentence list is a non-empty block of document
sentences prepended to the chunk's own (re-split) sentences, keeping
`start_idx` and `chunk_id`. -/
def RuleShape (nlp : SpacyNLP) (ss : List Str) (c r : Chunk) : Prop :=
  r = c ∨ ∃ us cs, us ≠ [] ∧ cs ≠ [] ∧ (∀ x ∈ us, x ∈ ss) ∧
    cs = split_into_sentences nlp c.text ∧
    r = create_chunk nlp (joinSp (us ++ cs)) c.start_idx c.metadata.chunk_id

/-- The source-level segmenter assumption: splitting the space-join of a
non-empty list of document sentences recovers that list (spaCy-like behaviour,
restricted to sentences of the document at hand). -/
def SplitsJoins (nlp : SpacyNLP) (S : List Str) : Prop :=
  ∀ ss : List Str, ss ≠ [] → (∀ x ∈ ss, x ∈ S) →
    split_into_sentences nlp (joinSp ss) = ss

/-- A chunk whose text is the space-join of a non-empty list of document
sentences. -/
def GoodChunk (S : List Str) (c : Chunk) : Prop :=
  ∃ bs, bs ≠ [] ∧ (∀ x ∈ bs, x ∈ S) ∧ c.text = joinSp bs

/-- A chunk produced by `_create_chunk`. -/
def MadeByCreate (nlp : SpacyNLP) (c : Chunk) : Prop :=
  ∃ t s id, c = create_chunk nlp t s id

/-- The composite effect of the three rules on one chunk, as applied by
`_apply_coref_rules`. -/
def RuleChain (nlp : SpacyNLP) (S : List Str) (c r : Chunk) : Prop :=
  r = c ∨ ∃ r₁ r₂, RuleShape nlp S c r₁ ∧ RuleShape nlp S r₁ r₂ ∧
    RuleShape nlp S r₂ r

/-- The combined packing invariant used by the claims about `chunk()`. -/
def PackInv (nlp : SpacyNLP) (S : List Str) (n : Nat) (st : PackState) : Prop :=
  (∀ c ∈ st.chunks, MadeByCreate nlp c) ∧
  (∀ c ∈ st.chunks, GoodChunk S c) ∧
  (∀ x ∈ st.current_sentences, x ∈ S) ∧
  (∀ c ∈ st.chunks, c.start_idx ≤ n) ∧
  st.sentence_start_idx ≤ n

/-- Sentence `s` already sits inside an emitted chunk or in the open buffer. -/
def covered (s : Str) (st : PackState) : Prop :=
  (∃ c ∈ st.chunks, substrOf s c.text) ∨ s ∈ st.current_sentences

/-- Two consecutive packed chunks share a seeded overlap: a list `ov` of at
least `min overlap_sentences (length of the earlier buffer)` sentences that is
a suffix of the earlier chunk's buffer and a prefix of the later one's. -/
def OverlapSeeded (cfg : ChunkerConfig) (S : List Str) (c c' : Chunk) : Prop :=
  ∃ b b' ov, b ≠ [] ∧ b' ≠ [] ∧ (∀ x ∈ b, x ∈ S) ∧ (∀ x ∈ b', x ∈ S) ∧
    c.text = joinSp b ∧ c'.text = joinSp b' ∧
    min cfg.overlap_sentences b.length ≤ ov.length ∧
    (∃ u, b = u ++ ov) ∧ (∃ v, b' = ov ++ v)

/-- The pending-overlap invariant between the last emitted chunk and the open
buffer. -/
def C5Pending (cfg : ChunkerConfig) (S : List Str) (st : PackState) : Prop :=
  match st.chunks.getLast? with
  | none => True
  | some c => ∃ b ov, b ≠ [] ∧ (∀ x ∈ b, x ∈ S) ∧ c.text = joinSp b ∧
      min cfg.overlap_sentences b.length ≤ ov.length ∧
      (∃ u, b = u ++ ov) ∧ ∃ v, st.current_sentences = ov ++ v

/-- The packing invariant for the overlap property. -/
def C5Inv (cfg : ChunkerConfig) (S : List Str) (st : PackState) : Prop :=
  List.Chain' (OverlapSeeded cfg S) st.chunks ∧
  (∀ x ∈ st.current_sentences, x ∈ S) ∧ C5Pending cfg S st

/-! ## Witness scenario constants -/

/-- Witness character model: `A`, `B` are entity-bearing, `h`, `i` are
pronouns, `n` is a concrete noun. -/
def mW : CharModel := ⟨['A', 'B'], ['h', 'i'], ['n']⟩

/-- Witness configuration: tiny target size, overlap 1. -/
def cfgW : ChunkerConfig := ⟨2, 600, 1⟩

/-- Witness document: six one-character sentences. -/
def textW : Str := s2l "A h B i n h"

/-- First chunk of the witness run (the packer's first emitted chunk). -/
def cW : Chunk := create_chunk (charNLP mW) (s2l "A h") 0 0

/-- Antecedent sentence of the C7 witness scenario (entity-bearing). -/
def sP : Str := s2l "P"

/-- Pronoun-dense sentence of the C7 witness scenario: 3 pronoun tokens out of
20, density exactly 3/20 = 0.15. -/
def sA : Str := s2l "a"

/-- Filler sentence of the C7 witness scenario. -/
def sB : Str := s2l "b"

/-- Table-driven pipeline for the C7 witness: `"T"` parses into sentences
`[sA, sB]`; `sA` has 20 tokens of which 3 are pronouns; `sP` carries a
non-temporal entity. -/
def nlpC7 : SpacyNLP :=
  tableNLP
    [(s2l "T", ⟨[], [], [sA, sB]⟩),
     (sA, ⟨List.replicate 3 ⟨s2l "he", s2l "PRON"⟩ ++
           List.replicate 17 ⟨s2l "x", s2l "X"⟩, [], []⟩),
     (sB, ⟨[⟨s2l "x", s2l "X"⟩], [], []⟩),
     (sP, ⟨[⟨s2l "p", s2l "PROPN"⟩], [⟨s2l "PERSON"⟩], []⟩)]

/-- The chunk the C7 witness applies Rule B to. -/
def c7c : Chunk := ⟨s2l "T", 5, 6, ⟨1, 0, 0, false, 0⟩⟩

/-- Dummy first chunk of the C7 witness chunk list. -/
def c7z : Chunk := ⟨sP, 0, 1, ⟨0, 0, 0, true, 0⟩⟩

/-- Document sentences of the C7 witness. -/
def ssC7 : List Str := [sP, sA, sB]

/-- Chunk list of the C7 witness. -/
def chsC7 : List Chunk := [c7z, c7c]

/-- Default chunk used with `List.getD`. -/
def dChunk : Chunk := ⟨[], 0, 0, ⟨0, 0, 0, false, 0⟩⟩

/-- Character model of the C2 counterexample: no entity characters, `n` is a
concrete noun. -/
def m2 : CharModel := ⟨[], [], ['n']⟩

/-- Document sentences of the C2 counterexample: a concrete-noun sentence at
index 0, the chunk's first sentence at index 1. -/
def ss2 : List Str := [s2l "n", s2l "x"]

/-- The chunk of the C2 counterexample, starting at sentence index 1. -/
def c2 : Chunk := create_chunk (charNLP m2) (s2l "x") 1 1

/-- Chunk list of the C2 counterexample. -/
def chs2 : List Chunk := [create_chunk (charNLP m2) (s2l "n") 0 0, c2]

/-- Document sentences of the C2 amended-claim witness: concrete-noun
sentences at indices 0 and 1, the chunk's first sentence at index 2. -/
def ss2b : List Str := [s2l "n", s2l "n", s2l "x"]

/-- The chunk of the C2 amended-claim witness, starting at sentence index 2. -/
def c2b : Chunk := create_chunk (charNLP m2) (s2l "x") 2 1

/-- Chunk list of the C2 amended-claim witness. -/
def chs2b : List Chunk := [create_chunk (charNLP m2) (s2l "n n") 0 0, c2b]

/-- The chunk of the second C2 amended-claim witness scenario (entity search):
starts at sentence index 4 of the witness document. -/
def c2e : Chunk := create_chunk (charNLP mW) (s2l "n h") 4 1

/-- Chunk list of the second C2 amended-claim witness scenario. -/
def chs2e : List Chunk := [create_chunk (charNLP mW) (s2l "A h") 0 0, c2e]

/-- Character model of the C3 counterexample: `A` and `B` are entity-bearing,
`h` is a pronoun. -/
def m3 : CharModel := ⟨['A', 'B'], ['h'], []⟩

/-- Document sentences of the C3 counterexample: the sentence text `B` occurs
both at index 1 (before the chunk) and at index 3 (inside the chunk). -/
def ss3 : List Str := [s2l "A", s2l "B", s2l "h", s2l "B"]

/-- The chunk of the C3 counterexample: sentences `h` and `B`, starting at
sentence index 2. -/
def c3 : Chunk := create_chunk (charNLP m3) (s2l "h B") 2 1

/-- Chunk list of the C3 counterexample. -/
def chs3 : List Chunk := [create_chunk (charNLP m3) (s2l "A B") 0 0, c3]

/-- Document sentences of the C6 witness (the witness document's segmented
sentence sequence). -/
def ss6 : List Str := split_into_sentences (charNLP mW) textW

/-- The chunk of the C6 witness: starts on a bare pronoun, Rule A fires. -/
def c6c : Chunk := create_chunk (charNLP mW) (s2l "h B") 1 1

/-- Chunk list of the C6 witness. -/
def chs6 : List Chunk := [create_chunk (charNLP mW) (s2l "A h") 0 0, c6c]

/-- Character model of the C8 witness: no entity characters and no noun
characters at all, so the backward lookup can never find an antecedent. -/
def m8 : CharModel := ⟨[], ['h'], []⟩

/-- Document sentences of the C8 witness. -/
def ss8 : List Str := [s2l "h", s2l "x"]

/-- The chunk the C8 witness applies the rules to (second chunk, starting at
sentence index 1). -/
def c8 : Chunk := create_chunk (charNLP m8) (s2l "x") 1 1

/-- Chunk list of the C8 witness. -/
def chs8 : List Chunk := [create_chunk (charNLP m8) (s2l "h") 0 0, c8]

/-! ## Basic lemmas about the text primitives -/

theorem strip_single {c : Char} (h : isWs c = false) : strip [c] = [c] := by
  simp [strip, List.dropWhile, h]

theorem joinSp_append (a b : List Str) (ha : a ≠ []) (hb : b ≠ []) :
    joinSp (a ++ b) = joinSp a ++ ' ' :: joinSp b := by
  induction a with
  | nil => exact absurd rfl ha
  | cons x rest ih =>
      cases rest with
      | nil =>
          cases b with
          | nil => exact absurd rfl hb
          | cons y bs => simp [joinSp]
      | cons r rs =>
          have h1 : joinSp ((x :: r :: rs) ++ b) =
              x ++ ' ' :: joinSp ((r :: rs) ++ b) := rfl
          have h2 : joinSp (x :: r :: rs) = x ++ ' ' :: joinSp (r :: rs) := rfl
          rw [h1, ih (by simp), h2]
          simp

theorem substrOf_of_mem_joinSp {x : Str} {l : List Str} (h : x ∈ l) :
    substrOf x (joinSp l) := by
  induction l with
  | nil => cases h
  | cons y rest ih =>
      rcases List.mem_cons.mp h with rfl | hx
      · cases rest with
        | nil => exact ⟨[], [], by simp [joinSp]⟩
        | cons r rs => exact ⟨[], ' ' :: joinSp (r :: rs), by simp [joinSp]⟩
      · have hrest : rest ≠ [] := by rintro rfl; cases hx
        obtain ⟨u, v, huv⟩ := ih hx
        cases rest with
        | nil => cases hx
        | cons r rs =>
            exact ⟨y ++ ' ' :: u, v, by simp [joinSp, huv]⟩

theorem substrOf_append_right {x b : Str} (a : Str) (h : substrOf x b) :
    substrOf x (a ++ b) := by
  obtain ⟨u, v, huv⟩ := h
  exact ⟨a ++ u, v, by simp [huv]⟩

/-! ## The character-level segmenter inverts sentence joining -/

theorem strip_map_filter_single (cs : List Char)
    (h : ∀ c ∈ cs, isWs c = false) :
    ((cs.map (fun c => [c])).map strip).filter (fun s => s ≠ []) =
      cs.map (fun c => [c]) := by
  induction cs with
  | nil => rfl
  | cons c rest ih =>
      have hc := h c (by simp)
      simp only [List.map_cons, strip_single hc, List.filter_cons]
      rw [ih (fun x hx => h x (by simp [hx]))]
      simp

theorem charNLP_split (m : CharModel) (t : Str) :
    split_into_sentences (charNLP m) t =
      (t.filter (fun c => !isWs c)).map (fun c => [c]) := by
  unfold split_into_sentences charNLP charParse
  exact strip_map_filter_single _ (by
    intro c hc
    simpa using (List.mem_filter.mp hc).2)

theorem joinSp_single_chars (l : List Str) (h : singleChars l = true) :
    ((joinSp l).filter (fun c => !isWs c)).map (fun c => [c]) = l := by
  induction l with
  | nil => rfl
  | cons x rest ih =>
      simp only [singleChars, List.all_cons, Bool.and_eq_true] at h
      obtain ⟨hx, hrest⟩ := h
      obtain ⟨c, hc, rfl⟩ : ∃ c, (!isWs c) = true ∧ x = [c] := by
        cases x with
        | nil => simp at hx
        | cons c cs =>
            cases cs with
            | nil => exact ⟨c, hx, rfl⟩
            | cons d ds => simp at hx
      cases rest with
      | nil => simp [joinSp, List.filter_cons, hc]
      | cons y ys =>
          have ihr := ih hrest
          have hj : joinSp ([c] :: y :: ys) = [c] ++ ' ' :: joinSp (y :: ys) := rfl
          have hsp : (!isWs ' ') = false := by decide
          rw [hj]
          simp only [List.filter_append, List.filter_cons, hc, hsp,
            List.singleton_append, if_true, if_false, List.map_cons,
            List.map_append]
          simp [ihr]

theorem charNLP_roundtrip (m : CharModel) :
    ∀ l : List Str, singleChars l = true →
      split_into_sentences (charNLP m) (joinSp l) = l := by
  intro l hl
  rw [charNLP_split]
  exact joinSp_single_chars l hl

theorem singleChars_of_mem {L l : List Str} (hL : singleChars L = true)
    (h : ∀ x ∈ l, x ∈ L) : singleChars l = true := by
  simp only [singleChars, List.all_eq_true] at hL ⊢
  exact fun x hx => hL x (h x hx)

/-! ## Properties of the shared backward lookup -/

theorem scanLoop_mem {ss : List Str} {maxS : Nat} {pred : Str → Bool} :
    ∀ (idxs : List Nat) (acc : List Str) (x : Str),
      x ∈ scanLoop ss maxS pred idxs acc →
      x ∈ acc ∨ ∃ j, j ∈ idxs ∧ j < ss.length ∧ x = ss.getD j [] ∧
        pred (ss.getD j []) = true := by
  intro idxs
  induction idxs with
  | nil => intro acc x hx; exact Or.inl hx
  | cons i rest ih =>
      intro acc x hx
      unfold scanLoop at hx
      by_cases h1 : i < ss.length
      · simp only [h1, if_true] at hx
        by_cases h2 : pred (ss.getD i []) = true
        · simp only [h2, if_true] at hx
          by_cases h3 : maxS ≤ (ss.getD i [] :: acc).length
          · simp only [h3, if_true] at hx
            rcases List.mem_cons.mp hx with rfl | hx'
            · exact Or.inr ⟨i, by simp, h1, rfl, h2⟩
            · exact Or.inl hx'
          · simp only [h3, if_false] at hx
            rcases ih _ x hx with hacc | ⟨j, hj, hlen, hxe, hp⟩
            · rcases List.mem_cons.mp hacc with rfl | hx'
              · exact Or.inr ⟨i, by simp, h1, rfl, h2⟩
              · exact Or.inl hx'
            · exact Or.inr ⟨j, by simp [hj], hlen, hxe, hp⟩
        · simp only [h2, if_false] at hx
          rcases ih _ x hx with hacc | ⟨j, hj, hlen, hxe, hp⟩
          · exact Or.inl hacc
          · exact Or.inr ⟨j, by simp [hj], hlen, hxe, hp⟩
      · simp only [h1, if_false] at hx
        rcases ih _ x hx with hacc | ⟨j, hj, hlen, hxe, hp⟩
        · exact Or.inl hacc
        · exact Or.inr ⟨j, by simp [hj], hlen, hxe, hp⟩

theorem getD_mem_of_lt {ss : List Str} {j : Nat} (h : j < ss.length) :
    ss.getD j [] ∈ ss := by
  rw [List.getD_eq_getElem ss [] h]
  exact List.getElem_mem h

theorem get_previous_mem {nlp : SpacyNLP} {ss : List Str} {i : Nat}
    {chs : List Chunk} {m : Nat} :
    ∀ x ∈ get_previous_sentences_with_entities nlp ss i chs m, x ∈ ss := by
  intro x hx
  unfold get_previous_sentences_with_entities at hx
  by_cases h0 : i = 0
  · simp [h0] at hx
  · simp only [h0, if_false] at hx
    set start := chunk_start_idx nlp ss i chs with hstart
    by_cases hres : scanLoop ss m (has_named_entities nlp)
        (List.range start).reverse [] = []
    · rw [hres] at hx
      simp only [if_true] at hx
      rcases scanLoop_mem _ _ _ hx with h | ⟨j, _, hlen, rfl, _⟩
      · cases h
      · exact getD_mem_of_lt hlen
    · simp only [hres, if_false] at hx
      rcases scanLoop_mem _ _ _ hx with h | ⟨j, _, hlen, rfl, _⟩
      · cases h
      · exact getD_mem_of_lt hlen

/-! ## The common shape of the three hazard rules -/

theorem start_rule_shape (nlp : SpacyNLP) (c : Chunk) (chs : List Chunk)
    (ss : List Str) (i : Nat) :
    RuleShape nlp ss c (apply_start_rule nlp c chs ss i) := by
  unfold apply_start_rule
  split
  · exact Or.inl rfl
  split
  · exact Or.inl rfl
  next first rest heq =>
  split
  · split
    · split
      next huniq =>
        exact Or.inr ⟨_, first :: rest, huniq, by simp,
          (fun x hx => get_previous_mem x (List.mem_of_mem_filter hx)),
          heq.symm, rfl⟩
      · exact Or.inl rfl
    · exact Or.inl rfl
  · exact Or.inl rfl

theorem anaphora_rule_shape (nlp : SpacyNLP) (c : Chunk) (chs : List Chunk)
    (ss : List Str) (i : Nat) :
    RuleShape nlp ss c (apply_anaphora_hazard_rule nlp c chs ss i) := by
  unfold apply_anaphora_hazard_rule
  split
  · exact Or.inl rfl
  next first rest heq =>
  split
  · exact Or.inl rfl
  split
  · split
    · split
      next hnew =>
        exact Or.inr ⟨_, first :: rest, hnew, by simp,
          (fun x hx => get_previous_mem x (List.mem_of_mem_filter hx)),
          heq.symm, rfl⟩
      · exact Or.inl rfl
    · exact Or.inl rfl
  · exact Or.inl rfl

theorem sentence_start_rule_shape (nlp : SpacyNLP) (c : Chunk)
    (chs : List Chunk) (ss : List Str) (i : Nat) :
    RuleShape nlp ss c (apply_sentence_start_rule nlp c chs ss i) := by
  unfold apply_sentence_start_rule
  split
  · exact Or.inl rfl
  next first rest heq =>
  split
  · exact Or.inl rfl
  split
  · split
    · split
      next hnew =>
        exact Or.inr ⟨_, first :: rest, hnew, by simp,
          (fun x hx => get_previous_mem x (List.mem_of_mem_filter hx)),
          heq.symm, rfl⟩
      · exact Or.inl rfl
    · exact Or.inl rfl
  · exact Or.inl rfl

/-! ## Consequences of the rule shape -/

theorem ruleShape_start_idx {nlp : SpacyNLP} {S : List Str} {c r : Chunk}
    (h : RuleShape nlp S c r) : r.start_idx = c.start_idx := by
  rcases h with rfl | ⟨us, cs, _, _, _, _, rfl⟩
  · rfl
  · rfl

theorem ruleShape_made {nlp : SpacyNLP} {S : List Str} {c r : Chunk}
    (h : RuleShape nlp S c r) (hc : MadeByCreate nlp c) :
    MadeByCreate nlp r := by
  rcases h with rfl | ⟨us, cs, _, _, _, _, rfl⟩
  · exact hc
  · exact ⟨_, _, _, rfl⟩

theorem ruleShape_good {nlp : SpacyNLP} {S : List Str} {c r : Chunk}
    (h : RuleShape nlp S c r) (hs : SplitsJoins nlp S) (hc : GoodChunk S c) :
    GoodChunk S r ∧ ∃ pre, r.text = pre ++ c.text := by
  rcases h with rfl | ⟨us, cs, hus, hcsne, husS, hcseq, rfl⟩
  · exact ⟨hc, [], rfl⟩
  · obtain ⟨bs, hbsne, hbsS, hbstext⟩ := hc
    have hsplit : split_into_sentences nlp c.text = bs := by
      rw [hbstext]; exact hs bs hbsne hbsS
    have hcsbs : cs = bs := by rw [hcseq, hsplit]
    subst hcsbs
    constructor
    · refine ⟨us ++ cs, by simp [hus], ?_, ?_⟩
      · intro x hx
        rcases List.mem_append.mp hx with hx | hx
        · exact husS x hx
        · exact hbsS x hx
      · rfl
    · refine ⟨joinSp us ++ [' '], ?_⟩
      show joinSp (us ++ cs) = (joinSp us ++ [' ']) ++ c.text
      rw [joinSp_append us cs hus hcsne, hbstext]
      simp

theorem ruleChain_start_idx {nlp : SpacyNLP} {S : List Str} {c r : Chunk}
    (h : RuleChain nlp S c r) : r.start_idx = c.start_idx := by
  rcases h with rfl | ⟨r₁, r₂, h₁, h₂, h₃⟩
  · rfl
  · rw [ruleShape_start_idx h₃, ruleShape_start_idx h₂, ruleShape_start_idx h₁]

theorem ruleChain_made {nlp : SpacyNLP} {S : List Str} {c r : Chunk}
    (h : RuleChain nlp S c r) (hc : MadeByCreate nlp c) :
    MadeByCreate nlp r := by
  rcases h with rfl | ⟨r₁, r₂, h₁, h₂, h₃⟩
  · exact hc
  · exact ruleShape_made h₃ (ruleShape_made h₂ (ruleShape_made h₁ hc))

theorem ruleChain_good {nlp : SpacyNLP} {S : List Str} {c r : Chunk}
    (h : RuleChain nlp S c r) (hs : SplitsJoins nlp S) (hc : GoodChunk S c) :
    GoodChunk S r ∧ ∃ pre, r.text = pre ++ c.text := by
  rcases h with rfl | ⟨r₁, r₂, h₁, h₂, h₃⟩
  · exact ⟨hc, [], rfl⟩
  · obtain ⟨hg₁, pre₁, he₁⟩ := ruleShape_good h₁ hs hc
    obtain ⟨hg₂, pre₂, he₂⟩ := ruleShape_good h₂ hs hg₁
    obtain ⟨hg₃, pre₃, he₃⟩ := ruleShape_good h₃ hs hg₂
    exact ⟨hg₃, pre₃ ++ pre₂ ++ pre₁, by rw [he₃, he₂, he₁]; simp⟩

theorem coref_go_pair {nlp : SpacyNLP} {chks : List Chunk} {S : List Str} :
    ∀ (cs : List Chunk) (i : Nat),
      List.Forall₂ (RuleChain nlp S) cs (coref_rules_go nlp chks S i cs) := by
  intro cs
  induction cs with
  | nil => intro i; exact List.Forall₂.nil
  | cons c rest ih =>
      intro i
      refine List.Forall₂.cons ?_ (ih (i + 1))
      by_cases hsp : split_into_sentences nlp c.text = []
      · rw [if_pos hsp]
        exact Or.inl rfl
      · rw [if_neg hsp]
        exact Or.inr ⟨_, _, start_rule_shape nlp c chks S i,
          anaphora_rule_shape nlp _ chks S i,
          sentence_start_rule_shape nlp _ chks S i⟩

theorem apply_coref_rules_pair (nlp : SpacyNLP) (chks : List Chunk)
    (S : List Str) :
    List.Forall₂ (RuleChain nlp S) chks (apply_coref_rules nlp chks S) := by
  unfold apply_coref_rules
  split
  · exact List.forall₂_same.mpr (fun c _ => Or.inl rfl)
  · exact coref_go_pair chks 0

/-! ## Packing-loop invariants -/

theorem forall₂_mem_right {α β : Type} {R : α → β → Prop} :
    ∀ {l₁ : List α} {l₂ : List β}, List.Forall₂ R l₁ l₂ →
      ∀ b ∈ l₂, ∃ a ∈ l₁, R a b := by
  intro l₁ l₂ h
  induction h with
  | nil => intro b hb; cases hb
  | cons hR _ ih =>
      intro b hb
      rcases List.mem_cons.mp hb with rfl | hb'
      · exact ⟨_, by simp, hR⟩
      · obtain ⟨a, ha, hab⟩ := ih b hb'
        exact ⟨a, by simp [ha], hab⟩

theorem forall₂_mem_left {α β : Type} {R : α → β → Prop} :
    ∀ {l₁ : List α} {l₂ : List β}, List.Forall₂ R l₁ l₂ →
      ∀ a ∈ l₁, ∃ b ∈ l₂, R a b := by
  intro l₁ l₂ h
  induction h with
  | nil => intro a ha; cases ha
  | cons hR _ ih =>
      intro a ha
      rcases List.mem_cons.mp ha with rfl | ha'
      · exact ⟨_, by simp, hR⟩
      · obtain ⟨b, hb, hab⟩ := ih a ha'
        exact ⟨b, by simp [hb], hab⟩

theorem mem_overlap_tail {cfg : ChunkerConfig} {cur : List Str} {x : Str}
    (h : x ∈ overlap_tail cfg cur) : x ∈ cur := by
  unfold overlap_tail pySliceLast at h
  split at h
  · split at h
    · exact h
    · exact List.mem_of_mem_drop h
  · exact h

theorem packStep_inv {nlp : SpacyNLP} {cfg : ChunkerConfig} {S : List Str}
    {n : Nat} {st : PackState} {p : Nat × Str} (hinv : PackInv nlp S n st)
    (hp : p.2 ∈ S) (hi : p.1 ≤ n) : PackInv nlp S n (packStep nlp cfg st p) := by
  obtain ⟨h1, h2, h3, h4, h5⟩ := hinv
  unfold packStep
  split
  next hcond =>
    refine ⟨?_, ?_, ?_, ?_, ?_⟩
    · intro c hc
      rcases List.mem_append.mp hc with hc | hc
      · exact h1 c hc
      · rcases List.mem_singleton.mp hc with rfl
        exact ⟨_, _, _, rfl⟩
    · intro c hc
      rcases List.mem_append.mp hc with hc | hc
      · exact h2 c hc
      · rcases List.mem_singleton.mp hc with rfl
        exact ⟨st.current_sentences, hcond.2, h3, rfl⟩
    · intro x hx
      rcases List.mem_append.mp hx with hx | hx
      · exact h3 x (mem_overlap_tail hx)
      · rcases List.mem_singleton.mp hx with rfl
        exact hp
    · intro c hc
      rcases List.mem_append.mp hc with hc | hc
      · exact h4 c hc
      · rcases List.mem_singleton.mp hc with rfl
        exact h5
    · exact le_trans (Nat.sub_le _ _) hi
  · refine ⟨h1, h2, ?_, h4, h5⟩
    intro x hx
    rcases List.mem_append.mp hx with hx | hx
    · exact h3 x hx
    · rcases List.mem_singleton.mp hx with rfl
      exact hp

theorem packStep_covered {nlp : SpacyNLP} {cfg : ChunkerConfig} {s : Str}
    {st : PackState} {p : Nat × Str} (h : covered s st) :
    covered s (packStep nlp cfg st p) := by
  unfold packStep
  split
  · rcases h with ⟨c, hc, hsub⟩ | hcur
    · exact Or.inl ⟨c, by simp [hc], hsub⟩
    · exact Or.inl ⟨create_chunk nlp (joinSp st.current_sentences)
        st.sentence_start_idx st.chunks.length, by simp,
        substrOf_of_mem_joinSp hcur⟩
  · rcases h with ⟨c, hc, hsub⟩ | hcur
    · exact Or.inl ⟨c, hc, hsub⟩
    · exact Or.inr (by simp [hcur])

theorem packStep_covers_new {nlp : SpacyNLP} {cfg : ChunkerConfig}
    {st : PackState} {p : Nat × Str} : covered p.2 (packStep nlp cfg st p) := by
  unfold packStep
  split
  · exact Or.inr (by simp)
  · exact Or.inr (by simp)

theorem packStep_current_ne {nlp : SpacyNLP} {cfg : ChunkerConfig}
    {st : PackState} {p : Nat × Str} :
    (packStep nlp cfg st p).current_sentences ≠ [] := by
  unfold packStep
  split
  · simp
  · simp

theorem packFoldl_inv {nlp : SpacyNLP} {cfg : ChunkerConfig} {S : List Str}
    {n : Nat} :
    ∀ (l : List (Nat × Str)) (st : PackState), PackInv nlp S n st →
      (∀ p ∈ l, p.2 ∈ S ∧ p.1 ≤ n) →
      PackInv nlp S n (l.foldl (packStep nlp cfg) st) := by
  intro l
  induction l with
  | nil => intro st h _; exact h
  | cons p rest ih =>
      intro st h hl
      exact ih _ (packStep_inv h (hl p (by simp)).1 (hl p (by simp)).2)
        (fun q hq => hl q (by simp [hq]))

theorem packFoldl_covered {nlp : SpacyNLP} {cfg : ChunkerConfig} {s : Str} :
    ∀ (l : List (Nat × Str)) (st : PackState), covered s st →
      covered s (l.foldl (packStep nlp cfg) st) := by
  intro l
  induction l with
  | nil => intro st h; exact h
  | cons p rest ih => intro st h; exact ih _ (packStep_covered h)

theorem packFoldl_covers {nlp : SpacyNLP} {cfg : ChunkerConfig} :
    ∀ (l : List (Nat × Str)) (st : PackState) (p : Nat × Str), p ∈ l →
      covered p.2 (l.foldl (packStep nlp cfg) st) := by
  intro l
  induction l with
  | nil => intro st p hp; cases hp
  | cons q rest ih =>
      intro st p hp
      rcases List.mem_cons.mp hp with rfl | hp'
      · exact packFoldl_covered rest _ packStep_covers_new
      · exact ih _ p hp'

theorem packFoldl_current_ne {nlp : SpacyNLP} {cfg : ChunkerConfig} :
    ∀ (l : List (Nat × Str)) (st : PackState), l ≠ [] →
      (l.foldl (packStep nlp cfg) st).current_sentences ≠ [] := by
  intro l
  induction l with
  | nil => intro st h; exact absurd rfl h
  | cons p rest ih =>
      intro st _
      cases hr : rest with
      | nil => simpa [hr] using packStep_current_ne
      | cons q qs =>
          have := ih (packStep nlp cfg st p) (by simp [hr])
          simpa [hr] using this

theorem mem_enumFrom_facts {α : Type} :
    ∀ (l : List α) (k : Nat) (p : Nat × α), p ∈ l.enumFrom k →
      k ≤ p.1 ∧ p.1 < k + l.length ∧ p.2 ∈ l := by
  intro l
  induction l with
  | nil => intro k p hp; cases hp
  | cons x rest ih =>
      intro k p hp
      rcases List.mem_cons.mp hp with rfl | hp'
      · exact ⟨le_refl _, by simp, by simp⟩
      · obtain ⟨h1, h2, h3⟩ := ih (k + 1) p hp'
        exact ⟨by omega, by simp; omega, by simp [h3]⟩

theorem mem_enum_facts {α : Type} (l : List α) (p : Nat × α)
    (hp : p ∈ l.enum) : p.1 < l.length ∧ p.2 ∈ l := by
  obtain ⟨_, h2, h3⟩ := mem_enumFrom_facts l 0 p hp
  exact ⟨by omega, h3⟩

theorem packLoop_facts (nlp : SpacyNLP) (cfg : ChunkerConfig) (S : List Str) :
    ∀ c ∈ packLoop nlp cfg S,
      MadeByCreate nlp c ∧ GoodChunk S c ∧ c.start_idx ≤ S.length := by
  have hinv : PackInv nlp S S.length (packFold nlp cfg S) := by
    apply packFoldl_inv _ _ ⟨by simp, by simp, by simp, by simp, by simp⟩
    intro p hp
    obtain ⟨h1, h2⟩ := mem_enum_facts S p hp
    exact ⟨h2, le_of_lt h1⟩
  obtain ⟨h1, h2, h3, h4, h5⟩ := hinv
  intro c hc
  unfold packLoop at hc
  split at hc
  next hne =>
    rcases List.mem_append.mp hc with hc | hc
    · exact ⟨h1 c hc, h2 c hc, h4 c hc⟩
    · rcases List.mem_singleton.mp hc with rfl
      exact ⟨⟨_, _, _, rfl⟩, ⟨_, hne, h3, rfl⟩, h5⟩
  · exact ⟨h1 c hc, h2 c hc, h4 c hc⟩

theorem packLoop_covers (nlp : SpacyNLP) (cfg : ChunkerConfig) (S : List Str)
    (s : Str) (hs : s ∈ S) : ∃ c ∈ packLoop nlp cfg S, substrOf s c.text := by
  have hcov : covered s (packFold nlp cfg S) := by
    obtain ⟨i, hi⟩ := List.get_of_mem hs
    have : (i.1, s) ∈ S.enum := by
      rw [List.mem_enum_iff_getElem?]
      simp [← hi, List.getElem?_eq_getElem i.2]
    exact packFoldl_covers S.enum _ (i.1, s) this
  have hne : (packFold nlp cfg S).current_sentences ≠ [] := by
    apply packFoldl_current_ne
    have : S ≠ [] := by rintro rfl; cases hs
    cases hS : S with
    | nil => exact absurd hS this
    | cons a as => simp [hS, List.enum]
  unfold packLoop
  rw [if_pos hne]
  rcases hcov with ⟨c, hc, hsub⟩ | hcur
  · exact ⟨c, by simp [hc], hsub⟩
  · exact ⟨create_chunk nlp (joinSp (packFold nlp cfg S).current_sentences)
      (packFold nlp cfg S).sentence_start_idx (packFold nlp cfg S).chunks.length,
      by simp, substrOf_of_mem_joinSp hcur⟩

/-! ## Facts about every chunk returned by `chunk()` -/

theorem chunk_mem_made_start (nlp : SpacyNLP) (cfg : ChunkerConfig)
    (text : Str) :
    ∀ r ∈ chunk nlp cfg text,
      MadeByCreate nlp r ∧
      r.start_idx ≤ (split_into_sentences nlp text).length := by
  intro r hr
  unfold chunk at hr
  split at hr
  · cases hr
  split at hr
  · cases hr
  next s heq =>
    rcases List.mem_singleton.mp hr with rfl
    exact ⟨⟨_, _, _, rfl⟩, Nat.zero_le _⟩
  next s₁ s₂ rest heq =>
    obtain ⟨c, hc, hchain⟩ := forall₂_mem_right
      (apply_coref_rules_pair nlp (packLoop nlp cfg (s₁ :: s₂ :: rest))
        (s₁ :: s₂ :: rest)) r hr
    obtain ⟨hmade, _, hstart⟩ := packLoop_facts nlp cfg _ c hc
    refine ⟨ruleChain_made hchain hmade, ?_⟩
    rw [ruleChain_start_idx hchain, heq]
    exact hstart

theorem chunk_covers (nlp : SpacyNLP) (cfg : ChunkerConfig) (text : Str)
    (hs : SplitsJoins nlp (split_into_sentences nlp text))
    (hne : strip text ≠ []) :
    ∀ s ∈ split_into_sentences nlp text,
      ∃ r ∈ chunk nlp cfg text, substrOf s r.text := by
  intro s hsmem
  unfold chunk
  split
  next hstrip => exact absurd hstrip hne
  split
  next heq => rw [heq] at hsmem; cases hsmem
  next x heq =>
    rw [heq] at hsmem
    rcases List.mem_singleton.mp hsmem with rfl
    exact ⟨create_chunk nlp s 0 0, by simp, [], [], by simp [create_chunk]⟩
  next s₁ s₂ rest heq =>
    rw [heq] at hsmem
    obtain ⟨c, hc, hsub⟩ := packLoop_covers nlp cfg (s₁ :: s₂ :: rest) s hsmem
    obtain ⟨_, hgood, _⟩ := packLoop_facts nlp cfg _ c hc
    obtain ⟨r, hr, hchain⟩ := forall₂_mem_left
      (apply_coref_rules_pair nlp (packLoop nlp cfg (s₁ :: s₂ :: rest))
        (s₁ :: s₂ :: rest)) c hc
    obtain ⟨_, pre, hpre⟩ := ruleChain_good hchain (heq ▸ hs) hgood
    refine ⟨r, hr, ?_⟩
    rw [hpre]
    obtain ⟨u, v, huv⟩ := hsub
    exact ⟨pre ++ u, v, by rw [huv]; simp⟩

theorem charNLP_splitsJoins (m : CharModel) (S : List Str)
    (hS : singleChars S = true) : SplitsJoins (charNLP m) S :=
  fun ss _ hmem => charNLP_roundtrip m ss (singleChars_of_mem hS hmem)

/-! ## Claims -/

/-- C1: For every non-empty input text, every sentence obtained by segmenting
the document appears verbatim in the text of at least one chunk returned by
`chunk()`.  The segmenter hypothesis `SplitsJoins` states that re-splitting a
space-join of document sentences recovers them (the spaCy behaviour the code
relies on when it re-derives a chunk's sentence list from its text). -/
theorem C1_coverage (nlp : SpacyNLP) (cfg : ChunkerConfig) (text : Str)
    (hs : SplitsJoins nlp (split_into_sentences nlp text))
    (hne : strip text ≠ []) :
    ∀ s ∈ split_into_sentences nlp text,
      ∃ c ∈ chunk nlp cfg text, substrOf s c.text :=
  chunk_covers nlp cfg text hs hne

/-- Witness for C1 at a concrete pipeline, configuration and document. -/
theorem C1_coverage_witness :
    ∃ c ∈ chunk (charNLP mW) cfgW textW, substrOf (s2l "i") c.text :=
  C1_coverage (charNLP mW) cfgW textW
    (charNLP_splitsJoins mW _ (by decide)) (by decide) (s2l "i") (by decide)

/-- C9: Every chunk in the list returned by `chunk()` has metadata derived
from its current text: `token_count`, `sentence_count`, `has_entities` and
`pronoun_density` all equal the values recomputed from `text`; hazard-rule
mutations rebuild metadata together with text, so no returned chunk has stale
metadata. -/
theorem C9_metadata_fresh (nlp : SpacyNLP) (cfg : ChunkerConfig) (text : Str) :
    ∀ c ∈ chunk nlp cfg text,
      c.metadata.token_count = count_tokens nlp c.text ∧
      c.metadata.sentence_count = (split_into_sentences nlp c.text).length ∧
      c.metadata.has_entities = has_named_entities nlp c.text ∧
      c.metadata.pronoun_density = calculate_pronoun_density nlp c.text := by
  intro c hc
  obtain ⟨⟨t, s, id, rfl⟩, -⟩ := chunk_mem_made_start nlp cfg text c hc
  exact ⟨rfl, rfl, rfl, rfl⟩

/-- Witness for C9 at a concrete chunk of a concrete run. -/
theorem C9_metadata_fresh_witness :
    cW ∈ chunk (charNLP mW) cfgW textW ∧
      (cW.metadata.token_count = count_tokens (charNLP mW) cW.text ∧
       cW.metadata.sentence_count =
         (split_into_sentences (charNLP mW) cW.text).length ∧
       cW.metadata.has_entities = has_named_entities (charNLP mW) cW.text ∧
       cW.metadata.pronoun_density =
         calculate_pronoun_density (charNLP mW) cW.text) :=
  ⟨by decide, C9_metadata_fresh (charNLP mW) cfgW textW cW (by decide)⟩

/-- C10: For every chunk produced by the chunker, whether by the greedy packer
or by any hazard-rule mutation, `end_idx = start_idx + len(text)`, where
`start_idx` is the value carried over from packing, a sentence index into the
document's sentence sequence (bounded by the number of sentences), not a
character offset. -/
theorem C10_end_idx (nlp : SpacyNLP) (cfg : ChunkerConfig) (text : Str) :
    ∀ c ∈ chunk nlp cfg text,
      c.end_idx = c.start_idx + c.text.length ∧
      c.start_idx ≤ (split_into_sentences nlp text).length := by
  intro c hc
  obtain ⟨⟨t, s, id, rfl⟩, hle⟩ := chunk_mem_made_start nlp cfg text c hc
  exact ⟨rfl, hle⟩

/-- Witness for C10 at a concrete chunk of a concrete run. -/
theorem C10_end_idx_witness :
    cW ∈ chunk (charNLP mW) cfgW textW ∧
      cW.end_idx = cW.start_idx + cW.text.length ∧
      cW.start_idx ≤ (split_into_sentences (charNLP mW) textW).length := by
  have h := C10_end_idx (charNLP mW) cfgW textW cW (by decide)
  exact ⟨by decide, h.1, h.2⟩

/-! ## Density bridging lemmas -/

theorem calculate_pronoun_density_div (nlp : SpacyNLP) (t : Str) :
    calculate_pronoun_density nlp t =
      if (nlp.parse t).tokens.length = 0 then 0
      else ((nlp.parse t).tokens.countP isPronounTok : ℚ) /
        ((nlp.parse t).tokens.length : ℚ) := by
  unfold calculate_pronoun_density
  split
  · rfl
  · rw [Rat.mkRat_eq_div]; norm_num

theorem threshold_eq : mkRat 15 100 = (3 : ℚ) / 20 := by
  rw [Rat.mkRat_eq_div]; norm_num

theorem mkRat_three_twenty : mkRat 3 20 = (3 : ℚ) / 20 := by
  rw [Rat.mkRat_eq_div]; norm_num

/-- C4: During greedy packing, the current buffer is closed as a chunk exactly
when the buffer is non-empty and `current_token_count +
next_sentence_token_count` is strictly greater than `target_size`; in
particular, a sentence whose tokens bring the running total to exactly
`target_size` is appended to the current buffer and no chunk is closed. -/
theorem C4_tie_break (nlp : SpacyNLP) (cfg : ChunkerConfig) (st : PackState)
    (p : Nat × Str) :
    ((packStep nlp cfg st p).chunks.length = st.chunks.length + 1 ↔
      (st.current_sentences ≠ [] ∧
        cfg.target_size < st.current_token_count + count_tokens nlp p.2)) ∧
    (st.current_token_count + count_tokens nlp p.2 = cfg.target_size →
      (packStep nlp cfg st p).chunks = st.chunks ∧
      (packStep nlp cfg st p).current_sentences =
        st.current_sentences ++ [p.2]) := by
  constructor
  · unfold packStep
    split
    next h => simp [h.1, h.2]
    next h =>
      constructor
      · intro habs; simp at habs
      · intro hcond; exact absurd ⟨hcond.2, hcond.1⟩ h
  · intro heq
    have hn : ¬(cfg.target_size < st.current_token_count + count_tokens nlp p.2 ∧
        st.current_sentences ≠ []) := by
      rintro ⟨h1, -⟩; omega
    unfold packStep
    rw [if_neg hn]
    exact ⟨rfl, rfl⟩

/-- Witness for C4: a sentence bringing the total to exactly the target size
is appended, closing no chunk. -/
theorem C4_tie_break_witness :
    (packStep (charNLP mW) cfgW ⟨[], [s2l "A"], 1, 0⟩ (1, s2l "h")).chunks =
      [] ∧
    (packStep (charNLP mW) cfgW ⟨[], [s2l "A"], 1, 0⟩
        (1, s2l "h")).current_sentences = [s2l "A"] ++ [s2l "h"] :=
  (C4_tie_break (charNLP mW) cfgW ⟨[], [s2l "A"], 1, 0⟩ (1, s2l "h")).2
    (by decide)

/-- C7: Rule B's trigger scans the chunk's sentences for pronoun density
greater than or equal to 0.15 = 3/20: if no sentence reaches the threshold the
rule returns the chunk unchanged, and a sentence whose density is exactly 3/20
does trigger the rule (the comparison is `>=`, not `>`), so that with a
non-first chunk and a fresh antecedent available the rule rebuilds the
chunk. -/
theorem C7_density_threshold (nlp : SpacyNLP) (c : Chunk) (chs : List Chunk)
    (ss : List Str) (i : Nat) :
    ((¬ ∃ s ∈ split_into_sentences nlp c.text,
        (3 : ℚ) / 20 ≤ calculate_pronoun_density nlp s) →
      apply_anaphora_hazard_rule nlp c chs ss i = c) ∧
    (∀ s ∈ split_into_sentences nlp c.text,
      calculate_pronoun_density nlp s = (3 : ℚ) / 20 → 0 < i →
      (get_previous_sentences_with_entities nlp ss i chs 2).filter
        (fun sent => decide (sent ∉ split_into_sentences nlp c.text)) ≠ [] →
      apply_anaphora_hazard_rule nlp c chs ss i =
        create_chunk nlp
          (joinSp ((get_previous_sentences_with_entities nlp ss i chs 2).filter
              (fun sent => decide (sent ∉ split_into_sentences nlp c.text)) ++
            split_into_sentences nlp c.text))
          c.start_idx c.metadata.chunk_id) := by
  constructor
  · intro hno
    unfold apply_anaphora_hazard_rule
    split
    · rfl
    next first rest hsp =>
      have hany : ((first :: rest).any
          (fun s => decide (mkRat 15 100 ≤ calculate_pronoun_density nlp s))) =
          false := by
        rw [List.any_eq_false]
        intro s hs
        simp only [decide_eq_true_eq, threshold_eq]
        intro hle
        exact hno ⟨s, by rw [hsp]; exact hs, hle⟩
      rw [if_pos hany]
  · intro s hs hdens hi hne
    unfold apply_anaphora_hazard_rule
    split
    next hsp => rw [hsp] at hs; cases hs
    next first rest hsp =>
      rw [hsp] at hs hne ⊢
      have hany : ((first :: rest).any
          (fun s => decide (mkRat 15 100 ≤ calculate_pronoun_density nlp s))) =
          true := by
        rw [List.any_eq_true]
        exact ⟨s, hs, by
          simp only [decide_eq_true_eq, threshold_eq, hdens]
          exact le_refl _⟩
      rw [if_neg (by simp [hany]), if_pos hi]
      have hprev : get_previous_sentences_with_entities nlp ss i chs 2 ≠ [] := by
        intro h
        exact hne (by rw [h]; rfl)
      rw [if_pos hprev, if_pos hne]

/-- Expected result of the C7 witness: the entity-bearing antecedent `sP` is
prepended to the chunk's sentences. -/
theorem C7_density_threshold_witness :
    calculate_pronoun_density nlpC7 sA = (3 : ℚ) / 20 ∧
    apply_anaphora_hazard_rule nlpC7 c7c chsC7 ssC7 1 =
      create_chunk nlpC7
        (joinSp ((get_previous_sentences_with_entities nlpC7 ssC7 1 chsC7 2).filter
            (fun sent => decide (sent ∉ split_into_sentences nlpC7 c7c.text)) ++
          split_into_sentences nlpC7 c7c.text))
        c7c.start_idx c7c.metadata.chunk_id := by
  have hdens : calculate_pronoun_density nlpC7 sA = (3 : ℚ) / 20 := by
    rw [← mkRat_three_twenty]; decide
  exact ⟨hdens, (C7_density_threshold nlpC7 c7c chsC7 ssC7 1).2 sA (by decide)
    hdens (by decide) (by decide)⟩

/-- C8: For every chunk and every hazard rule, if the shared lookup returns no
antecedent, the rule returns the chunk completely unchanged (same text,
`start_idx`, `end_idx` and metadata) and, being a total function, raises no
error. -/
theorem C8_lookup_miss (nlp : SpacyNLP) (c : Chunk) (chs : List Chunk)
    (ss : List Str) (i : Nat) :
    (get_previous_sentences_with_entities nlp ss i chs 1 = [] →
      apply_start_rule nlp c chs ss i = c ∧
      apply_sentence_start_rule nlp c chs ss i = c) ∧
    (get_previous_sentences_with_entities nlp ss i chs 2 = [] →
      apply_anaphora_hazard_rule nlp c chs ss i = c) := by
  constructor
  · intro h
    constructor
    · unfold apply_start_rule
      split
      · rfl
      split
      · rfl
      split
      · split
        next hprev => exact absurd h hprev
        next => rfl
      · rfl
    · unfold apply_sentence_start_rule
      split
      · rfl
      split
      · rfl
      split
      · split
        next hprev => exact absurd h hprev
        · rfl
      · rfl
  · intro h
    unfold apply_anaphora_hazard_rule
    split
    · rfl
    split
    · rfl
    split
    · split
      next hprev => exact absurd h hprev
      · rfl
    · rfl

/-- Witness for C8: a pipeline with no entities and no concrete nouns, where
the lookup misses and all three rules are no-ops. -/
theorem C8_lookup_miss_witness :
    (apply_start_rule (charNLP m8) c8 chs8 ss8 1 = c8 ∧
     apply_sentence_start_rule (charNLP m8) c8 chs8 ss8 1 = c8) ∧
    apply_anaphora_hazard_rule (charNLP m8) c8 chs8 ss8 1 = c8 :=
  ⟨(C8_lookup_miss (charNLP m8) c8 chs8 ss8 1).1 (by decide),
   (C8_lookup_miss (charNLP m8) c8 chs8 ss8 1).2 (by decide)⟩

/-! ## Further scan-loop lemmas (for C2) -/

theorem scanLoop_ne_nil {ss : List Str} {maxS : Nat} {pred : Str → Bool} :
    ∀ (idxs : List Nat) (acc : List Str),
      (acc ≠ [] ∨ ∃ j ∈ idxs, j < ss.length ∧ pred (ss.getD j []) = true) →
      scanLoop ss maxS pred idxs acc ≠ [] := by
  intro idxs
  induction idxs with
  | nil =>
      intro acc h
      rcases h with h | ⟨j, hj, _⟩
      · exact h
      · cases hj
  | cons i rest ih =>
      intro acc h
      unfold scanLoop
      by_cases h1 : i < ss.length
      · rw [if_pos h1]
        by_cases h2 : pred (ss.getD i []) = true
        · rw [if_pos h2]
          by_cases h3 : maxS ≤ (ss.getD i [] :: acc).length
          · rw [if_pos h3]; simp
          · rw [if_neg h3]
            exact ih _ (Or.inl (by simp))
        · rw [if_neg h2]
          apply ih
          rcases h with h | ⟨j, hj, hlen, hp⟩
          · exact Or.inl h
          · rcases List.mem_cons.mp hj with rfl | hj'
            · exact absurd hp h2
            · exact Or.inr ⟨j, hj', hlen, hp⟩
      · rw [if_neg h1]
        apply ih
        rcases h with h | ⟨j, hj, hlen, hp⟩
        · exact Or.inl h
        · rcases List.mem_cons.mp hj with rfl | hj'
          · exact absurd hlen h1
          · exact Or.inr ⟨j, hj', hlen, hp⟩

theorem scanLoop_eq_acc {ss : List Str} {maxS : Nat} {pred : Str → Bool} :
    ∀ (idxs : List Nat),
      (∀ j ∈ idxs, j < ss.length → pred (ss.getD j []) = false) →
      ∀ acc, scanLoop ss maxS pred idxs acc = acc := by
  intro idxs
  induction idxs with
  | nil => intro _ acc; rfl
  | cons i rest ih =>
      intro h acc
      unfold scanLoop
      by_cases h1 : i < ss.length
      · rw [if_pos h1, if_neg (by
          simp only [h i (List.mem_cons_self i rest) h1]
          exact Bool.false_ne_true)]
        exact ih (fun j hj => h j (by simp [hj])) acc
      · rw [if_neg h1]
        exact ih (fun j hj => h j (by simp [hj])) acc

/-- C2 counterexample: a document whose only preceding sentence (index 0, a
concrete-noun sentence, with no entity-bearing sentence anywhere) is NOT
returned by the fallback of the shared lookup — the lookup returns `[]`
because its concrete-noun window excludes sentence 0 — contradicting the
claim that the lookup "falls back to the nearest preceding sentence
containing a concrete noun". -/
theorem C2_counterexample :
    has_concrete_nouns (charNLP m2) (ss2.getD 0 []) = true ∧
    (∀ j < chunk_start_idx (charNLP m2) ss2 1 chs2, j < ss2.length →
      has_named_entities (charNLP m2) (ss2.getD j []) = false) ∧
    0 < chunk_start_idx (charNLP m2) ss2 1 chs2 ∧
    get_previous_sentences_with_entities (charNLP m2) ss2 1 chs2 1 = [] := by
  refine ⟨by decide, by decide, by decide, by decide⟩

/-- C2 amended: the windows are the other way round from the claim.  The
entity scan is unbounded — whenever any sentence strictly before the chunk's
resolved start position carries an entity, the lookup returns (only)
entity-bearing preceding sentences, however far back.  The concrete-noun
fallback only runs when the entity scan found nothing, and searches only the
bounded window of indices `j` with `start - 6 < j < start` (so at most the
five nearest preceding sentences, and never sentence 0 when `start ≤ 6`). -/
theorem C2_amended_lookup (nlp : SpacyNLP) (ss : List Str) (chs : List Chunk)
    (i m : Nat) :
    ((∀ j < chunk_start_idx nlp ss i chs, j < ss.length →
        has_named_entities nlp (ss.getD j []) = false) →
      ∀ x ∈ get_previous_sentences_with_entities nlp ss i chs m,
        ∃ j, chunk_start_idx nlp ss i chs - 6 < j ∧
          j < chunk_start_idx nlp ss i chs ∧ j < ss.length ∧
          x = ss.getD j [] ∧ has_concrete_nouns nlp x = true) ∧
    ((i ≠ 0 ∧ ∃ j, j < chunk_start_idx nlp ss i chs ∧ j < ss.length ∧
        has_named_entities nlp (ss.getD j []) = true) →
      get_previous_sentences_with_entities nlp ss i chs m ≠ [] ∧
      ∀ x ∈ get_previous_sentences_with_entities nlp ss i chs m,
        ∃ j, j < chunk_start_idx nlp ss i chs ∧ j < ss.length ∧
          x = ss.getD j [] ∧ has_named_entities nlp x = true) := by
  constructor
  · intro hno x hx
    unfold get_previous_sentences_with_entities at hx
    by_cases h0 : i = 0
    · simp [h0] at hx
    · rw [if_neg h0] at hx
      have hent : scanLoop ss m (has_named_entities nlp)
          (List.range (chunk_start_idx nlp ss i chs)).reverse [] = [] := by
        apply scanLoop_eq_acc
        intro j hj hlen
        exact hno j (by simpa using hj) hlen
      rw [if_pos hent] at hx
      rcases scanLoop_mem _ _ _ hx with h | ⟨j, hj, hlen, rfl, hp⟩
      · cases h
      · obtain ⟨hjr, hjf⟩ := List.mem_filter.mp hj
        exact ⟨j, of_decide_eq_true hjf, by simpa using hjr, hlen, rfl, hp⟩
  · rintro ⟨h0, j, hj, hlen, hent⟩
    have hne : scanLoop ss m (has_named_entities nlp)
        (List.range (chunk_start_idx nlp ss i chs)).reverse [] ≠ [] := by
      apply scanLoop_ne_nil
      exact Or.inr ⟨j, by simpa using hj, hlen, hent⟩
    constructor
    · unfold get_previous_sentences_with_entities
      rw [if_neg h0, if_neg hne]
      exact hne
    · intro x hx
      unfold get_previous_sentences_with_entities at hx
      rw [if_neg h0, if_neg hne] at hx
      rcases scanLoop_mem _ _ _ hx with h | ⟨j', hj', hlen', rfl, hp'⟩
      · cases h
      · exact ⟨j', by simpa using hj', hlen', rfl, hp'⟩

/-- Witness for the amended C2: the fallback returns a concrete-noun sentence
from inside the bounded window (first conjunct, model with no entities), and
the entity scan succeeds over an unbounded distance (second conjunct). -/
theorem C2_amended_lookup_witness :
    (∀ x ∈ get_previous_sentences_with_entities (charNLP m2) ss2b 1 chs2b 1,
      ∃ j, chunk_start_idx (charNLP m2) ss2b 1 chs2b - 6 < j ∧
        j < chunk_start_idx (charNLP m2) ss2b 1 chs2b ∧ j < ss2b.length ∧
        x = ss2b.getD j [] ∧ has_concrete_nouns (charNLP m2) x = true) ∧
    (get_previous_sentences_with_entities (charNLP mW) ss6 1 chs2e 1 ≠ [] ∧
      ∀ x ∈ get_previous_sentences_with_entities (charNLP mW) ss6 1 chs2e 1,
        ∃ j, j < chunk_start_idx (charNLP mW) ss6 1 chs2e ∧ j < ss6.length ∧
          x = ss6.getD j [] ∧ has_named_entities (charNLP mW) x = true) :=
  ⟨(C2_amended_lookup (charNLP m2) ss2b chs2b 1 1).1 (by decide),
   (C2_amended_lookup (charNLP mW) ss6 chs2e 1 1).2
     ⟨by decide, 2, by decide, by decide, by decide⟩⟩

/-! ## Evaluation lemma for Rule A (for C3 and C6) -/

theorem apply_start_rule_eval (nlp : SpacyNLP) (c : Chunk) (chs : List Chunk)
    (ss : List Str) (i : Nat) (hi : i ≠ 0) (first : Str) (rest : List Str)
    (hsp : split_into_sentences nlp c.text = first :: rest) :
    apply_start_rule nlp c chs ss i =
      (if has_named_entities nlp first = false ∧
          contains_pronouns nlp first = true then
        if get_previous_sentences_with_entities nlp ss i chs 1 ≠ [] then
          if (get_previous_sentences_with_entities nlp ss i chs 1).filter
              (fun sent => decide (sent ∉ first :: rest)) ≠ [] then
            create_chunk nlp
              (joinSp ((get_previous_sentences_with_entities nlp ss i chs 1).filter
                  (fun sent => decide (sent ∉ first :: rest)) ++
                (first :: rest)))
              c.start_idx c.metadata.chunk_id
          else c
        else c
      else c) := by
  unfold apply_start_rule
  rw [if_neg hi, hsp]

/-- C3 counterexample: Rule A triggers (the chunk's first sentence is a bare
pronoun), sentence 0 of the document is entity-bearing, lies strictly before
the chunk's resolved start (index 2), and is not present in the chunk — yet
Rule A prepends nothing and returns the chunk unchanged, because the backward
scan stops at the nearer entity sentence at index 1, whose text duplicates a
sentence already inside the chunk and is then discarded by the dedup filter
instead of being skipped during the scan. -/
theorem C3_counterexample :
    has_named_entities (charNLP m3) (ss3.getD 0 []) = true ∧
    ss3.getD 0 [] ∉ split_into_sentences (charNLP m3) c3.text ∧
    0 < chunk_start_idx (charNLP m3) ss3 1 chs3 ∧
    has_named_entities (charNLP m3)
      ((split_into_sentences (charNLP m3) c3.text).getD 0 []) = false ∧
    contains_pronouns (charNLP m3)
      ((split_into_sentences (charNLP m3) c3.text).getD 0 []) = true ∧
    apply_start_rule (charNLP m3) c3 chs3 ss3 1 = c3 := by
  refine ⟨by decide, by decide, by decide, by decide, by decide, by decide⟩

/-- C3 amended: when Rule A triggers, it prepends exactly the sentences
returned by the membership-blind nearest-entity lookup that are not already in
the chunk; when every returned sentence is already present, the rule leaves
the chunk unchanged — even if entity-bearing sentences not in the chunk exist
farther back.  The backward scan does not skip sentences already present in
the chunk; duplicates are filtered only after the scan has stopped. -/
theorem C3_amended_rule (nlp : SpacyNLP) (c : Chunk) (chs : List Chunk)
    (ss : List Str) (i : Nat) (hi : i ≠ 0) (first : Str) (rest : List Str)
    (hsp : split_into_sentences nlp c.text = first :: rest)
    (htr : has_named_entities nlp first = false ∧
      contains_pronouns nlp first = true) :
    ((get_previous_sentences_with_entities nlp ss i chs 1).filter
        (fun sent => decide (sent ∉ first :: rest)) = [] →
      apply_start_rule nlp c chs ss i = c) ∧
    ((get_previous_sentences_with_entities nlp ss i chs 1).filter
        (fun sent => decide (sent ∉ first :: rest)) ≠ [] →
      apply_start_rule nlp c chs ss i =
        create_chunk nlp
          (joinSp ((get_previous_sentences_with_entities nlp ss i chs 1).filter
              (fun sent => decide (sent ∉ first :: rest)) ++ (first :: rest)))
          c.start_idx c.metadata.chunk_id) := by
  rw [apply_start_rule_eval nlp c chs ss i hi first rest hsp, if_pos htr]
  constructor
  · intro hf
    by_cases hprev : get_previous_sentences_with_entities nlp ss i chs 1 = []
    · rw [if_neg (not_not_intro hprev)]
    · rw [if_pos hprev, if_neg (not_not_intro hf)]
  · intro hf
    have hprev : get_previous_sentences_with_entities nlp ss i chs 1 ≠ [] := by
      intro h
      exact hf (by rw [h]; rfl)
    rw [if_pos hprev, if_pos hf]

/-- Witness for the amended C3 at the counterexample scenario: every sentence
found by the lookup is already in the chunk, so Rule A is a no-op. -/
theorem C3_amended_rule_witness :
    apply_start_rule (charNLP m3) c3 chs3 ss3 1 = c3 :=
  (C3_amended_rule (charNLP m3) c3 chs3 ss3 1 (by decide) (s2l "h")
    [s2l "B"] (by decide) ⟨by decide, by decide⟩).1 (by decide)

/-! ## Idempotence of Rule A (C6) -/

theorem filter_prev_dedup (prev bs : List Str) :
    prev.filter (fun s =>
      decide (s ∉ (prev.filter (fun s => decide (s ∉ bs)) ++ bs))) = [] := by
  rw [List.filter_eq_nil_iff]
  intro a ha
  simp only [decide_eq_true_eq]
  intro hnot
  by_cases hab : a ∈ bs
  · exact hnot (List.mem_append.mpr (Or.inr hab))
  · exact hnot (List.mem_append.mpr (Or.inl
      (List.mem_filter.mpr ⟨ha, by simpa using hab⟩)))

/-- After Rule A has prepended the lookup's fresh sentences, running Rule A
again on the result changes nothing: the lookup (which does not depend on the
chunk argument) returns the same sentences, all of which are now present in
the chunk, so the dedup filter empties and the rule no-ops. -/
theorem start_rule_second_nop (nlp : SpacyNLP) (ss : List Str)
    (chs : List Chunk) (i : Nat) (hi : i ≠ 0) (hs : SplitsJoins nlp ss)
    (bs us : List Str) (hbsS : ∀ x ∈ bs, x ∈ ss)
    (hus : us = (get_previous_sentences_with_entities nlp ss i chs 1).filter
      (fun sent => decide (sent ∉ bs)))
    (husne : us ≠ []) (r : Chunk) (hr : r.text = joinSp (us ++ bs)) :
    apply_start_rule nlp r chs ss i = r := by
  have husS : ∀ x ∈ us, x ∈ ss := by
    rw [hus]
    intro x hx
    exact get_previous_mem x (List.mem_of_mem_filter hx)
  have hne : us ++ bs ≠ [] := by
    cases us with
    | nil => exact absurd rfl husne
    | cons a as => simp
  have hrsplit : split_into_sentences nlp r.text = us ++ bs := by
    rw [hr]
    refine hs _ hne ?_
    intro x hx
    rcases List.mem_append.mp hx with hx | hx
    · exact husS x hx
    · exact hbsS x hx
  cases us with
  | nil => exact absurd rfl husne
  | cons u0 urest =>
    have heval := apply_start_rule_eval nlp r chs ss i hi u0 (urest ++ bs)
      (by simpa using hrsplit)
    by_cases htr2 : has_named_entities nlp u0 = false ∧
        contains_pronouns nlp u0 = true
    · rw [heval, if_pos htr2]
      have hkey : (get_previous_sentences_with_entities nlp ss i chs 1).filter
          (fun sent => decide (sent ∉ u0 :: (urest ++ bs))) = [] := by
        have hd := filter_prev_dedup
          (get_previous_sentences_with_entities nlp ss i chs 1) bs
        rw [← hus] at hd
        simpa using hd
      by_cases hprev : get_previous_sentences_with_entities nlp ss i chs 1 = []
      · rw [if_neg (not_not_intro hprev)]
      · rw [if_pos hprev, if_neg (not_not_intro hkey)]
    · rw [heval, if_neg htr2]

/-- C6: Rule A is stable at its fixed point: applying Rule A twice to a chunk
(with the same document sentences and chunk list) yields the same chunk as
applying it once.  Stated under the segmenter round-trip hypothesis and for a
chunk whose text is a space-join of document sentences (as every chunk reaching
the rules is). -/
theorem C6_start_rule_idempotent (nlp : SpacyNLP) (ss : List Str)
    (chs : List Chunk) (i : Nat) (c : Chunk) (hs : SplitsJoins nlp ss)
    (hc : GoodChunk ss c) :
    apply_start_rule nlp (apply_start_rule nlp c chs ss i) chs ss i =
      apply_start_rule nlp c chs ss i := by
  by_cases hi : i = 0
  · subst hi
    have h0 : ∀ d : Chunk, apply_start_rule nlp d chs ss 0 = d := by
      intro d
      unfold apply_start_rule
      rw [if_pos rfl]
    rw [h0, h0]
  · obtain ⟨bs, hbsne, hbsS, hctext⟩ := hc
    have hsplit : split_into_sentences nlp c.text = bs := by
      rw [hctext]; exact hs bs hbsne hbsS
    cases bs with
    | nil => exact absurd rfl hbsne
    | cons first rest =>
      have heval := apply_start_rule_eval nlp c chs ss i hi first rest hsplit
      by_cases htr : has_named_entities nlp first = false ∧
          contains_pronouns nlp first = true
      · by_cases hprev : get_previous_sentences_with_entities nlp ss i chs 1 = []
        · have hA : apply_start_rule nlp c chs ss i = c := by
            rw [heval, if_pos htr, if_neg (not_not_intro hprev)]
          rw [hA]
          exact hA
        · by_cases huniq :
              (get_previous_sentences_with_entities nlp ss i chs 1).filter
                (fun sent => decide (sent ∉ first :: rest)) = []
          · have hA : apply_start_rule nlp c chs ss i = c := by
              rw [heval, if_pos htr, if_pos hprev, if_neg (not_not_intro huniq)]
            rw [hA]
            exact hA
          · have hA : apply_start_rule nlp c chs ss i =
                create_chunk nlp
                  (joinSp ((get_previous_sentences_with_entities nlp ss i
                      chs 1).filter
                      (fun sent => decide (sent ∉ first :: rest)) ++
                    (first :: rest)))
                  c.start_idx c.metadata.chunk_id := by
              rw [heval, if_pos htr, if_pos hprev, if_pos huniq]
            rw [hA]
            exact start_rule_second_nop nlp ss chs i hi hs (first :: rest) _
              hbsS rfl huniq _ rfl
      · have hA : apply_start_rule nlp c chs ss i = c := by
          rw [heval, if_neg htr]
        rw [hA]
        exact hA

/-- Witness for C6: the witness run's second packed chunk, on which Rule A
fires and prepends the entity sentence; the re-run is a no-op. -/
theorem C6_start_rule_idempotent_witness :
    apply_start_rule (charNLP mW)
        (apply_start_rule (charNLP mW) c6c chs6 ss6 1) chs6 ss6 1 =
      apply_start_rule (charNLP mW) c6c chs6 ss6 1 :=
  C6_start_rule_idempotent (charNLP mW) ss6 chs6 1 c6c
    (charNLP_splitsJoins mW ss6 (by decide))
    ⟨[s2l "h", s2l "B"], by decide, by decide, rfl⟩

/-! ## Overlap property of the packer (C5) -/

theorem overlap_tail_length (cfg : ChunkerConfig) (cur : List Str) :
    min cfg.overlap_sentences cur.length ≤ (overlap_tail cfg cur).length := by
  unfold overlap_tail pySliceLast
  split
  · split
    next h0 => rw [Nat.min_def]; split <;> omega
    next h0 =>
      rw [List.length_drop, Nat.min_def]
      split <;> omega
  · rw [Nat.min_def]; split <;> omega

theorem overlap_tail_suffix (cfg : ChunkerConfig) (cur : List Str) :
    ∃ u, cur = u ++ overlap_tail cfg cur := by
  unfold overlap_tail pySliceLast
  split
  · split
    · exact ⟨[], rfl⟩
    · exact ⟨cur.take (cur.length - cfg.overlap_sentences),
        (List.take_append_drop _ _).symm⟩
  · exact ⟨[], rfl⟩

theorem packStep_C5 {nlp : SpacyNLP} {cfg : ChunkerConfig} {S : List Str}
    {st : PackState} {p : Nat × Str} (h : C5Inv cfg S st) (hp : p.2 ∈ S) :
    C5Inv cfg S (packStep nlp cfg st p) := by
  obtain ⟨hchain, hcur, hpend⟩ := h
  unfold packStep
  split
  next hcond =>
    refine ⟨?_, ?_, ?_⟩
    · refine List.chain'_append.mpr ⟨hchain, by simp, ?_⟩
      intro x hx y hy
      simp only [List.head?_cons, Option.mem_some_iff] at hy
      subst hy
      unfold C5Pending at hpend
      rw [Option.mem_def] at hx
      rw [hx] at hpend
      obtain ⟨b, ov, hbne, hbS, hbtext, hovlen, hsuf, v, hcureq⟩ := hpend
      exact ⟨b, st.current_sentences, ov, hbne, hcond.2, hbS, hcur, hbtext,
        rfl, hovlen, hsuf, v, hcureq⟩
    · intro x hx
      rcases List.mem_append.mp hx with hx | hx
      · exact hcur x (mem_overlap_tail hx)
      · rcases List.mem_singleton.mp hx with rfl
        exact hp
    · unfold C5Pending
      rw [List.getLast?_concat]
      refine ⟨st.current_sentences, overlap_tail cfg st.current_sentences,
        hcond.2, hcur, rfl, overlap_tail_length cfg _,
        overlap_tail_suffix cfg _, [p.2], rfl⟩
  next hcond =>
    refine ⟨hchain, ?_, ?_⟩
    · intro x hx
      rcases List.mem_append.mp hx with hx | hx
      · exact hcur x hx
      · rcases List.mem_singleton.mp hx with rfl
        exact hp
    · unfold C5Pending at hpend ⊢
      cases hlast : st.chunks.getLast? with
      | none => trivial
      | some c =>
          rw [hlast] at hpend
          obtain ⟨b, ov, hbne, hbS, hbtext, hovlen, hsuf, v, hcureq⟩ := hpend
          exact ⟨b, ov, hbne, hbS, hbtext, hovlen, hsuf, v ++ [p.2],
            by rw [hcureq]; simp⟩

theorem packFoldl_C5 {nlp : SpacyNLP} {cfg : ChunkerConfig} {S : List Str} :
    ∀ (l : List (Nat × Str)) (st : PackState), C5Inv cfg S st →
      (∀ p ∈ l, p.2 ∈ S) →
      C5Inv cfg S (l.foldl (packStep nlp cfg) st) := by
  intro l
  induction l with
  | nil => intro st h _; exact h
  | cons p rest ih =>
      intro st h hl
      exact ih _ (packStep_C5 h (hl p (by simp)))
        (fun q hq => hl q (by simp [hq]))

theorem packLoop_chain (nlp : SpacyNLP) (cfg : ChunkerConfig) (S : List Str) :
    List.Chain' (OverlapSeeded cfg S) (packLoop nlp cfg S) := by
  have hinv : C5Inv cfg S (packFold nlp cfg S) := by
    apply packFoldl_C5 _ _ ⟨List.chain'_nil, by simp,
      by unfold C5Pending; exact trivial⟩
    intro p hp
    exact (mem_enum_facts S p hp).2
  obtain ⟨hchain, hcur, hpend⟩ := hinv
  unfold packLoop
  split
  next hne =>
    refine List.chain'_append.mpr ⟨hchain, by simp, ?_⟩
    intro x hx y hy
    simp only [List.head?_cons, Option.mem_some_iff] at hy
    subst hy
    unfold C5Pending at hpend
    rw [Option.mem_def] at hx
    rw [hx] at hpend
    obtain ⟨b, ov, hbne, hbS, hbtext, hovlen, hsuf, v, hcureq⟩ := hpend
    exact ⟨b, (packFold nlp cfg S).current_sentences, ov, hbne, hne, hbS,
      hcur, hbtext, rfl, hovlen, hsuf, v, hcureq⟩
  · exact hchain

/-- C5: whenever packing alone produces two or more chunks, each pair of
consecutive packed chunks (before any hazard rule runs) shares at least
`min(overlap_sentences, number of sentences of the earlier chunk)` sentences:
a common block that is a suffix of the earlier chunk's sentence list and a
prefix of the later one's.  Stated under the segmenter round-trip
hypothesis. -/
theorem C5_packed_overlap (nlp : SpacyNLP) (cfg : ChunkerConfig) (text : Str)
    (hs : SplitsJoins nlp (split_into_sentences nlp text)) (k : Nat)
    (hk : k + 1 < (packLoop nlp cfg (split_into_sentences nlp text)).length) :
    ∃ shared : List Str,
      min cfg.overlap_sentences
        (split_into_sentences nlp
          ((packLoop nlp cfg (split_into_sentences nlp text)).getD k
            dChunk).text).length ≤ shared.length ∧
      (∃ u, split_into_sentences nlp
        ((packLoop nlp cfg (split_into_sentences nlp text)).getD k
          dChunk).text = u ++ shared) ∧
      (∃ v, split_into_sentences nlp
        ((packLoop nlp cfg (split_into_sentences nlp text)).getD (k + 1)
          dChunk).text = shared ++ v) := by
  have hchain := packLoop_chain nlp cfg (split_into_sentences nlp text)
  rw [List.chain'_iff_get] at hchain
  have hrel := hchain k (by omega)
  obtain ⟨b, b', ov, hbne, hbne', hbS, hbS', hbt, hbt', hovlen, ⟨u, hu⟩,
    ⟨v, hv⟩⟩ := hrel
  have hk1 : k < (packLoop nlp cfg (split_into_sentences nlp text)).length := by
    omega
  have hd1 : (packLoop nlp cfg (split_into_sentences nlp text)).getD k dChunk =
      (packLoop nlp cfg (split_into_sentences nlp text)).get ⟨k, hk1⟩ := by
    rw [List.getD_eq_getElem _ _ hk1]
    rfl
  have hd2 : (packLoop nlp cfg (split_into_sentences nlp text)).getD (k + 1)
      dChunk =
      (packLoop nlp cfg (split_into_sentences nlp text)).get ⟨k + 1, hk⟩ := by
    rw [List.getD_eq_getElem _ _ hk]
    rfl
  have hsp1 : split_into_sentences nlp
      ((packLoop nlp cfg (split_into_sentences nlp text)).getD k dChunk).text =
      b := by
    rw [hd1, hbt]
    exact hs b hbne hbS
  have hsp2 : split_into_sentences nlp
      ((packLoop nlp cfg (split_into_sentences nlp text)).getD (k + 1)
        dChunk).text = b' := by
    rw [hd2, hbt']
    exact hs b' hbne' hbS'
  refine ⟨ov, ?_, ⟨u, by rw [hsp1, hu]⟩, ⟨v, by rw [hsp2, hv]⟩⟩
  rw [hsp1]
  exact hovlen

/-- Witness for C5 at the concrete witness run (chunks 0 and 1 share the
one-sentence seeded overlap). -/
theorem C5_packed_overlap_witness :
    ∃ shared : List Str,
      min cfgW.overlap_sentences
        (split_into_sentences (charNLP mW)
          ((packLoop (charNLP mW) cfgW
            (split_into_sentences (charNLP mW) textW)).getD 0
            dChunk).text).length ≤ shared.length ∧
      (∃ u, split_into_sentences (charNLP mW)
        ((packLoop (charNLP mW) cfgW
          (split_into_sentences (charNLP mW) textW)).getD 0
          dChunk).text = u ++ shared) ∧
      (∃ v, split_into_sentences (charNLP mW)
        ((packLoop (charNLP mW) cfgW
          (split_into_sentences (charNLP mW) textW)).getD 1
          dChunk).text = shared ++ v) :=
  C5_packed_overlap (charNLP mW) cfgW textW
    (charNLP_splitsJoins mW _ (by decide)) 0 (by decide)

end Flexmind

